import Mathlib

/-!
Verification of the podson feed parser core (src/index.ts).

The TypeScript source is shallowly embedded:
* JS numbers that can be `NaN` are modelled as `Option Int` (`none` = NaN);
  the integer ranges involved stay far below 2^53, so `Int` stands in for
  the exact doubles.
* JS `Date` objects are modelled by their `getTime()` value, again
  `Option Int` (`none` = Invalid Date).  Text-to-date parsing
  (`new Date(text)`) is kept abstract as a parameter `dparse`.
* The sax event stream is modelled as a list of events; the callback-driven
  parser becomes a fold of a step function over that list.
* JS object references (the mutable `tmpEpisode` / `owner` targets) are
  modelled with explicit heaps of episode and owner objects plus indices.
* `Array.prototype.sort` (stable per ECMA-262) is modelled by a stable
  insertion sort; for a consistent comparator this is the unique stable
  sorted permutation, hence the same list ECMA prescribes.
-/

namespace Podson

/-- JS number that may be `NaN`: `none` is NaN. -/
abbrev JSNum := Option Int

/-- JS `Date` modelled by `getTime()`: `none` is an Invalid Date (NaN time). -/
abbrev JSDate := Option Int

/-- JS addition, propagating NaN. -/
def jsAdd : JSNum → JSNum → JSNum
  | some a, some b => some (a + b)
  | _, _ => none

/-- JS multiplication, propagating NaN (`x * NaN = NaN` even for `x = 0`). -/
def jsMul : JSNum → JSNum → JSNum
  | some a, some b => some (a * b)
  | _, _ => none

/-- JS subtraction, propagating NaN. -/
def jsSub : JSNum → JSNum → JSNum
  | some a, some b => some (a - b)
  | _, _ => none

/-- ECMAScript `StrWhiteSpace` characters (WhiteSpace ∪ LineTerminator),
the set trimmed by `String.prototype.trim` and skipped by `parseInt`. -/
def jsStrWhitespace (c : Char) : Bool :=
  c = ' ' || c = '\t' || c = '\n' || c = '\r' ||
  c.toNat = 11 || c.toNat = 12 || c.toNat = 160 || c.toNat = 0xFEFF ||
  c.toNat = 0x1680 || (0x2000 ≤ c.toNat && c.toNat ≤ 0x200A) ||
  c.toNat = 0x2028 || c.toNat = 0x2029 || c.toNat = 0x202F ||
  c.toNat = 0x205F || c.toNat = 0x3000

/-- JS `String.prototype.trim`: strip `StrWhiteSpace` from both ends. -/
def jsTrim (s : String) : String :=
  ⟨(((s.data.dropWhile jsStrWhitespace).reverse.dropWhile jsStrWhitespace).reverse)⟩

/-- Value of a (non-empty) list of decimal digit characters. -/
def digitsVal (ds : List Char) : Int :=
  ds.foldl (fun n c => n * 10 + ((c.toNat : Int) - 48)) 0

/-- JS `parseInt(s, 10)`: skip leading whitespace, optional sign, read the
longest leading run of decimal digits; NaN (`none`) if that run is empty.
Trailing garbage after the digits is ignored. -/
def parseIntJS (s : String) : Option Int :=
  let cs := s.data.dropWhile jsStrWhitespace
  match cs with
  | '-' :: rest =>
      let ds := rest.takeWhile Char.isDigit
      if ds.isEmpty then none else some (-(digitsVal ds))
  | '+' :: rest =>
      let ds := rest.takeWhile Char.isDigit
      if ds.isEmpty then none else some (digitsVal ds)
  | _ =>
      let ds := cs.takeWhile Char.isDigit
      if ds.isEmpty then none else some (digitsVal ds)

/-- Split a character list at every occurrence of `sep` (JS
`String.prototype.split` with a one-character separator: an empty string
yields `[""]`, and `":::"` yields four empty fields). -/
def splitChar (sep : Char) : List Char → List (List Char)
  | [] => [[]]
  | c :: rest =>
      let r := splitChar sep rest
      if c = sep then [] :: r
      else
        match r with
        | h :: t => (c :: h) :: t
        | [] => [[c]]

/-- JS `s.split(sep)` for a one-character separator. -/
def jsSplit (sep : Char) (s : String) : List String :=
  (splitChar sep s.data).map (fun cs => ⟨cs⟩)

/-- The `steps` array `[60, 60, 24]` from `parseTime`. -/
def steps : List Int := [60, 60, 24]

/-- `steps[j]` as a JS value: `undefined` (which multiplies to NaN) beyond
index 2, modelled as `none`. -/
def stepsAt (j : Nat) : JSNum := steps[j]?

/-- The weight computed by the `while (i--)` loop of `parseTime` for a given
reduce index: starting from `1`, multiply by `steps[i]` for
`i = index-1, …, 0`.  For `index ≥ 4` this multiplies by `undefined` and is
NaN. -/
def multiplier (index : Nat) : JSNum :=
  ((List.range index).reverse).foldl (fun m j => jsMul m (stepsAt j)) (some 1)

/-- The indexed reduce inside `parseTime`: fold over the reversed token list,
`index` counting from 0, skipping tokens whose `parseInt` is NaN. -/
def parseTimeAux : Nat → JSNum → List String → JSNum
  | _, acc, [] => acc
  | i, acc, v :: vs =>
      parseTimeAux (i + 1)
        (match parseIntJS v with
          | none => acc
          | some p => jsAdd acc (jsMul (some p) (multiplier i)))
        vs

/-- `parseTime` from src/index.ts: falsy (empty) input yields `0`; otherwise
split on `':'`, reverse, and reduce with positional weights. -/
def parseTime (text : String) : JSNum :=
  if text = "" then some 0
  else parseTimeAux 0 (some 0) ((jsSplit ':' text).reverse)

/-- The weights named by the specification: start at `1`, then multiply by
`60`, `60`, `24` for each successive position. -/
def specWeight : Nat → Int
  | 0 => 1
  | 1 => 60
  | 2 => 3600
  | _ => 86400

/-- Modelled from the spec: the fold described in §4.4 — accumulate
`value × weight` left-to-right over the reversed token list, an unparsable
token contributing zero. -/
def parseTimeSpecAux : Nat → Int → List String → Int
  | _, acc, [] => acc
  | i, acc, v :: vs =>
      parseTimeSpecAux (i + 1) (acc + ((parseIntJS v).getD 0) * specWeight i) vs

/-- Modelled from the spec: the duration-parser algorithm as the
specification words it (split on `':'`, reverse, weighted fold). -/
def parseTimeSpecFn (text : String) : Int :=
  parseTimeSpecAux 0 0 ((jsSplit ':' text).reverse)

/-! ## Stable sort (model of ECMA-262 `Array.prototype.sort`) -/

/-- Insert `x` after every element `y` of `l` with `le y x` (ties keep the
earlier element first, which is exactly stability). -/
def insertLe (le : α → α → Bool) (x : α) : List α → List α
  | [] => [x]
  | y :: ys => if le y x then y :: insertLe le x ys else x :: y :: ys

/-- Stable sort: insert the elements left to right. -/
def stableSort (le : α → α → Bool) (l : List α) : List α :=
  l.foldl (fun acc x => insertLe le x acc) []

/-! ## lodash `uniq`: keep the first occurrence of each element -/

/-- `uniqAux seen l` drops the elements of `l` already in `seen`, threading
the set of values seen so far. -/
def uniqAux [DecidableEq α] (seen : List α) : List α → List α
  | [] => []
  | x :: xs => if x ∈ seen then uniqAux seen xs else x :: uniqAux (x :: seen) xs

/-- lodash `uniq`: first occurrence of each value is kept, in order. -/
def uniq [DecidableEq α] (l : List α) : List α := uniqAux [] l

/-! ## JS default string comparison: lexicographic on UTF-16 code units -/

/-- UTF-16 code units of one character (surrogate pair above U+FFFF). -/
def utf16Units (c : Char) : List Nat :=
  if c.toNat < 0x10000 then [c.toNat]
  else [0xD800 + (c.toNat - 0x10000) / 0x400, 0xDC00 + (c.toNat - 0x10000) % 0x400]

/-- UTF-16 code-unit sequence of a string. -/
def utf16 (s : String) : List Nat := (s.data.map utf16Units).flatten

/-- Lexicographic `≤` on code-unit sequences (a proper prefix is smaller). -/
def lexLeN : List Nat → List Nat → Bool
  | [], _ => true
  | _ :: _, [] => false
  | a :: as, b :: bs => if a < b then true else if b < a then false else lexLeN as bs

/-- JS `a <= b` on strings: code-unit lexicographic order, as used by the
default comparator of `Array.prototype.sort`. -/
def strLe (a b : String) : Bool := lexLeN (utf16 a) (utf16 b)

/-! ## Data model (src/types.ts) -/

/-- A chapter marker (`psc:chapter`): `start` in seconds, `title`. -/
structure Chapter where
  start : JSNum := none
  title : String := ""
deriving DecidableEq

/-- Media enclosure; `filesize` comes from `parseInt` and so may be NaN. -/
structure Enclosure where
  filesize : Option JSNum := none
  type : Option String := none
  url : Option String := none
deriving DecidableEq

/-- One episode.  `published` is `none` when never set; `some none` is an
Invalid Date (a `Date` object whose time is NaN). -/
structure Episode where
  guid : Option String := none
  title : Option String := none
  subtitle : Option String := none
  description : Option String := none
  summary : Option String := none
  content : Option String := none
  image : Option String := none
  published : Option JSDate := none
  duration : Option JSNum := none
  categories : Option (List String) := none
  enclosure : Option Enclosure := none
  chapters : Option (List Chapter) := none
deriving DecidableEq

/-- The `updated` field: absent (`undefined`), explicit `null`, or a `Date`. -/
inductive Updated
  | unset
  | nullU
  | dateU (d : JSDate)
deriving DecidableEq

/-- Podcast owner (`itunes:owner`). -/
structure Owner where
  name : Option String := none
  email : Option String := none
deriving DecidableEq

/-- The top-level feed record. -/
structure Podcast where
  title : Option String := none
  subtitle : Option String := none
  summary : Option String := none
  description : Option String := none
  link : Option String := none
  image : Option String := none
  language : Option String := none
  copyright : Option String := none
  author : Option String := none
  ttl : Option JSNum := none
  updated : Updated := .unset
  categories : List String := []
  owner : Option Owner := none
  episodes : Option (List Episode) := none
  feed : Option String := none
deriving DecidableEq

/-! ## Finalizer (`finalizePodcast`) -/

/-- `a.published ? a.published.getTime() : 0`: a present `Date` (even an
invalid one — objects are truthy) contributes its time, otherwise `0`. -/
def epGetTime (e : Episode) : JSNum :=
  match e.published with
  | some d => d
  | none => some 0

/-- The sort comparator `(a, b) => bv - av` turned into the "may stay
before" relation of ECMA-262: `a` may precede `b` iff the comparator is
`≤ 0`; a NaN comparator value is treated as `0` (equal). -/
def epLe (a b : Episode) : Bool :=
  match jsSub (epGetTime b) (epGetTime a) with
  | some v => decide (v ≤ 0)
  | none => true

/-- JS falsiness of the `updated` field: `undefined` and `null` are falsy,
any `Date` object (valid or not) is truthy. -/
def isFalsyUpdated : Updated → Bool
  | .unset => true
  | .nullU => true
  | .dateU _ => false

/-- `finalizePodcast` from src/index.ts: sort episodes by the comparator,
default `updated` from the first sorted episode (`?? null`), and
deduplicate-and-sort the categories. -/
def finalizePodcast (p : Podcast) : Podcast :=
  let sortedEps := p.episodes.map (fun l => stableSort epLe l)
  let updated' :=
    if isFalsyUpdated p.updated then
      match sortedEps with
      | some (e :: _) =>
          (match e.published with
            | some d => Updated.dateU d
            | none => Updated.nullU)
      | _ => Updated.nullU
    else p.updated
  { p with episodes := sortedEps, updated := updated',
           categories := stableSort strLe (uniq p.categories) }

/-- The timestamp the comparator actually uses for an episode with a valid
or absent date: the time for a valid date, `0` when the date is absent. -/
def epKeyInt (e : Episode) : Int :=
  match e.published with
  | some (some t) => t
  | _ => 0

/-- The ordering key the claim describes: an absent published timestamp is
"the earliest possible timestamp", i.e. `⊥`. -/
def specKeyBot (e : Episode) : WithBot Int :=
  match e.published with
  | some (some t) => (t : WithBot Int)
  | _ => ⊥

/-- The episode ordering asserted by the claim: descending by published
timestamp with absent timestamps treated as the earliest possible. -/
def claimedEpisodeOrder (l : List Episode) : Prop :=
  l.Pairwise (fun a b => specKeyBot b ≤ specKeyBot a)

/-- `episodes[0].published ?? null` as an `Updated` value. -/
def publishedToUpdated (e : Episode) : Updated :=
  match e.published with
  | some d => .dateU d
  | none => .nullU

/-! ## The streaming parser machine (`parse` in src/index.ts)

The sax callbacks `handleOpenTag` / `handleCloseTag` / `handleText` mutate
a context stack, a result record, and a current-episode reference.  JS
object identity matters (a node's `target` is captured at open time), so
owners and episodes live in explicit heaps addressed by index. -/

/-- JS `\w` character class: `[A-Za-z0-9_]`. -/
def isWordChar (c : Char) : Bool := c.isAlpha || c.isDigit || c = '_'

/-- Test of the regular expression `/\w\w-\w\w/i` (the `i` flag changes
nothing for `\w` and `-`). -/
def hasLangPattern (s : String) : Bool :=
  (List.range s.data.length).any (fun j =>
    match s.data.drop j with
    | a :: b :: c :: d :: e :: _ =>
        isWordChar a && isWordChar b && c = '-' && isWordChar d && isWordChar e
    | _ => false)

/-- JS `toLowerCase`, restricted to the simple per-character mapping. -/
def jsToLower (s : String) : String := ⟨s.data.map Char.toLower⟩

/-- `parseLanguage` from src/index.ts. -/
def parseLanguage (text : String) : String :=
  let lang := if !hasLangPattern text then
      (if text = "en" then "en-us" else text ++ "-" ++ text)
    else text
  jsToLower lang

/-- What a context node is populating: `target`/`textMap` combined.  The
`owner`/`item` payloads are heap indices of the object captured at open
time. -/
inductive Role
  | channel
  | owner (idx : Nat)
  | item (idx : Nat)
deriving DecidableEq

/-- One entry of the context stack (`ParsingNode`). -/
structure PNode where
  name : String
  attrs : List (String × String)
  role : Option Role := none
deriving DecidableEq

/-- The `result` object while parsing: like `Podcast` but with owner and
episodes as heap references. -/
structure PodcastBuild where
  title : Option String := none
  subtitle : Option String := none
  summary : Option String := none
  description : Option String := none
  link : Option String := none
  image : Option String := none
  language : Option String := none
  copyright : Option String := none
  author : Option String := none
  ttl : Option JSNum := none
  updated : Updated := .unset
  categories : List String := []
  ownerIdx : Option Nat := none
  episodeIdxs : Option (List Nat) := none
deriving DecidableEq

/-- Full parser state: context stack (head = current node), the result
record, the heaps, and the `tmpEpisode` reference. -/
structure MachState where
  stack : List PNode := []
  result : PodcastBuild := {}
  owners : List Owner := []
  episodes : List Episode := []
  tmpEpisode : Option Nat := none
deriving DecidableEq

/-- Raw attribute lookup (`node.attributes?.k`, which may be `""`). -/
def getAttr (attrs : List (String × String)) (k : String) : Option String :=
  (attrs.find? (fun kv => kv.1 == k)).map (fun kv => kv.2)

/-- Truthy attribute lookup: `some v` exactly when the attribute is present
and non-empty (the empty string is falsy in JS). -/
def truthyAttr (attrs : List (String × String)) (k : String) : Option String :=
  match getAttr attrs k with
  | some v => if v = "" then none else some v
  | none => none

/-- `prevValue ? prevValue + " " + trimmed : trimmed`. -/
def accum (prev : Option String) (t : String) : String :=
  match prev with
  | some p => if p = "" then t else p ++ " " ++ t
  | none => t

/-- Write one of the channel dispatch table's string-valued keys. -/
def PodcastBuild.setStr (p : PodcastBuild) (k t : String) : PodcastBuild :=
  if k = "title" then { p with title := some (accum p.title t) }
  else if k = "link" then { p with link := some (accum p.link t) }
  else if k = "subtitle" then { p with subtitle := some (accum p.subtitle t) }
  else if k = "summary" then { p with summary := some (accum p.summary t) }
  else if k = "description" then { p with description := some (accum p.description t) }
  else if k = "author" then { p with author := some (accum p.author t) }
  else p

/-- Read back the same keys. -/
def PodcastBuild.getStr (p : PodcastBuild) (k : String) : Option String :=
  if k = "title" then p.title
  else if k = "link" then p.link
  else if k = "subtitle" then p.subtitle
  else if k = "summary" then p.summary
  else if k = "description" then p.description
  else if k = "author" then p.author
  else none

/-- Write an owner string key. -/
def Owner.setStr (o : Owner) (k t : String) : Owner :=
  if k = "name" then { o with name := some (accum o.name t) }
  else if k = "email" then { o with email := some (accum o.email t) }
  else o

/-- Read an owner string key. -/
def Owner.getStr (o : Owner) (k : String) : Option String :=
  if k = "name" then o.name
  else if k = "email" then o.email
  else none

/-- Write an episode string key. -/
def Episode.setStr (e : Episode) (k t : String) : Episode :=
  if k = "title" then { e with title := some (accum e.title t) }
  else if k = "subtitle" then { e with subtitle := some (accum e.subtitle t) }
  else if k = "guid" then { e with guid := some (accum e.guid t) }
  else if k = "description" then { e with description := some (accum e.description t) }
  else if k = "summary" then { e with summary := some (accum e.summary t) }
  else if k = "content" then { e with content := some (accum e.content t) }
  else e

/-- Read an episode string key. -/
def Episode.getStr (e : Episode) (k : String) : Option String :=
  if k = "title" then e.title
  else if k = "subtitle" then e.subtitle
  else if k = "guid" then e.guid
  else if k = "description" then e.description
  else if k = "summary" then e.summary
  else if k = "content" then e.content
  else none

/-- The transform functions stored in the dispatch tables. -/
inductive Transform
  | language
  | ttl
  | chanPubDate
  | itemPubDate
  | itemDuration
deriving DecidableEq

/-- One dispatch-table entry: `true` (copy-as-is), a rename string, or a
transform function. -/
inductive TextRule
  | copy
  | ren (key : String)
  | tfm (f : Transform)
deriving DecidableEq

/-- The three dispatch tables (`textMap`) of src/index.ts, per role. -/
def textMapFor : Role → String → Option TextRule
  | .channel, t =>
      if t = "title" then some .copy
      else if t = "link" then some .copy
      else if t = "language" then some (.tfm .language)
      else if t = "itunes:subtitle" then some (.ren "subtitle")
      else if t = "itunes:summary" then some (.ren "summary")
      else if t = "description" then some (.ren "description")
      else if t = "itunes:author" then some (.ren "author")
      else if t = "ttl" then some (.tfm .ttl)
      else if t = "pubDate" then some (.tfm .chanPubDate)
      else none
  | .owner _, t =>
      if t = "itunes:name" then some (.ren "name")
      else if t = "itunes:email" then some (.ren "email")
      else none
  | .item _, t =>
      if t = "title" then some .copy
      else if t = "itunes:subtitle" then some (.ren "subtitle")
      else if t = "guid" then some .copy
      else if t = "description" then some (.ren "description")
      else if t = "itunes:summary" then some (.ren "summary")
      else if t = "pubDate" then some (.tfm .itemPubDate)
      else if t = "itunes:duration" then some (.tfm .itemDuration)
      else if t = "content:encoded" then some (.ren "content")
      else none

/-- Mutate the episode heap object at index `i`. -/
def setEp (s : MachState) (i : Nat) (f : Episode → Episode) : MachState :=
  { s with episodes := s.episodes.set i (f (s.episodes.getD i {})) }

/-- `handleOpenTag`: push a node and run the structural-extractor chain. -/
def handleOpenTag (s : MachState) (name : String) (attrs : List (String × String)) :
    MachState :=
  match s.stack with
  | [] => { s with stack := [{ name := name, attrs := attrs }] }
  | parent :: rest =>
      if name = "channel" then
        { s with stack :=
            { name := name, attrs := attrs, role := some .channel } :: parent :: rest }
      else if name = "itunes:image" ∧ parent.name = "channel" then
        let s' := match truthyAttr attrs "href" with
          | some href => { s with result := { s.result with image := some href } }
          | none => s
        { s' with stack := { name := name, attrs := attrs } :: parent :: rest }
      else if name = "itunes:owner" ∧ parent.name = "channel" then
        let idx := s.owners.length
        { s with owners := s.owners ++ [{}],
                 result := { s.result with ownerIdx := some idx },
                 stack := { name := name, attrs := attrs,
                            role := some (.owner idx) } :: parent :: rest }
      else if name = "itunes:category" then
        let s' := match truthyAttr attrs "text" with
          | some label =>
              let ancestors :=
                (parent :: rest).takeWhile (fun n : PNode => n.name == "itunes:category")
              let path :=
                (ancestors.filterMap (fun n : PNode => truthyAttr n.attrs "text")).reverse
                  ++ [label]
              let r' :=
                { s.result with
                  categories := s.result.categories ++ [String.intercalate ">" path] }
              { s with result := r' }
          | none => s
        { s' with stack := { name := name, attrs := attrs } :: parent :: rest }
      else if name = "item" ∧ parent.name = "channel" then
        let idx := s.episodes.length
        { s with episodes := s.episodes ++ [{}],
                 tmpEpisode := some idx,
                 stack := { name := name, attrs := attrs,
                            role := some (.item idx) } :: parent :: rest }
      else
        let s' := match s.tmpEpisode with
          | some i =>
              if name = "itunes:image" then
                match truthyAttr attrs "href" with
                | some href => setEp s i (fun e => { e with image := some href })
                | none => s
              else if name = "enclosure" then
                setEp s i (fun e => { e with enclosure := some {
                    filesize := (truthyAttr attrs "length").map parseIntJS,
                    type := getAttr attrs "type",
                    url := getAttr attrs "url" } })
              else if name = "psc:chapter" then
                match truthyAttr attrs "start", truthyAttr attrs "title" with
                | some st, some ti =>
                    let ch : Chapter :=
                      { start := parseTime ((jsSplit '.' st).headD ""), title := ti }
                    setEp s i (fun e =>
                      { e with chapters := some ((e.chapters.getD []) ++ [ch]) })
                | _, _ => s
              else s
          | none => s
        { s' with stack := { name := name, attrs := attrs } :: parent :: rest }

/-- `handleCloseTag`: pop the stack (popping past the root is a no-op) and
commit the current episode when an `item` closes. -/
def handleCloseTag (s : MachState) (name : String) : MachState :=
  let s' := { s with stack := s.stack.tail }
  match s'.tmpEpisode with
  | some i =>
      if name = "item" then
        let r' :=
          { s'.result with episodeIdxs := some ((s'.result.episodeIdxs.getD []) ++ [i]) }
        { s' with result := r', tmpEpisode := none }
      else s'
  | none => s'

/-- Apply a copy-as-is / rename write to the role's target object. -/
def applyStrKey (s : MachState) (r : Role) (k t : String) : MachState :=
  match r with
  | .channel => { s with result := s.result.setStr k t }
  | .owner i => { s with owners := s.owners.set i ((s.owners.getD i {}).setStr k t) }
  | .item i => setEp s i (fun e => e.setStr k t)

/-- Apply a transform-table entry (`Object.assign(target, fn(trimmed))`). -/
def applyTfm (dparse : String → JSDate) (s : MachState) (r : Role) (f : Transform)
    (t : String) : MachState :=
  match f, r with
  | .language, .channel =>
      { s with result := { s.result with language := some (parseLanguage t) } }
  | .ttl, .channel => { s with result := { s.result with ttl := some (parseIntJS t) } }
  | .chanPubDate, .channel =>
      { s with result := { s.result with updated := .dateU (dparse t) } }
  | .itemPubDate, .item i => setEp s i (fun e => { e with published := some (dparse t) })
  | .itemDuration, .item i => setEp s i (fun e => { e with duration := some (parseTime t) })
  | _, _ => s

/-- `handleText`: ignore whitespace-only text, dispatch through the
parent's table, then accumulate free-text `category` under an episode. -/
def handleText (dparse : String → JSDate) (s : MachState) (t : String) : MachState :=
  let trimmed := jsTrim t
  if trimmed = "" then s
  else
    match s.stack with
    | node :: parent :: _ =>
        let s1 := match parent.role with
          | some r =>
              match textMapFor r node.name with
              | some .copy => applyStrKey s r node.name trimmed
              | some (.ren k) => applyStrKey s r k trimmed
              | some (.tfm f) => applyTfm dparse s r f trimmed
              | none => s
          | none => s
        match s1.tmpEpisode with
        | some i =>
            if node.name = "category" then
              setEp s1 i (fun e =>
                { e with categories := some ((e.categories.getD []) ++ [trimmed]) })
            else s1
        | none => s1
    | _ => s

/-- A sax parse event. -/
inductive FeedEvent
  | openTag (name : String) (attrs : List (String × String))
  | closeTag (name : String)
  | text (t : String)
deriving DecidableEq

/-- One event step of the callback machine. -/
def stepEvent (dparse : String → JSDate) (s : MachState) : FeedEvent → MachState
  | .openTag n a => handleOpenTag s n a
  | .closeTag n => handleCloseTag s n
  | .text t => handleText dparse s t

/-- The state at the start of `parse`: empty stack, `{ categories: [] }`
result, no current episode. -/
def initState : MachState := {}

/-- Run the machine over the whole event stream. -/
def runEvents (dparse : String → JSDate) (evs : List FeedEvent) : MachState :=
  evs.foldl (stepEvent dparse) initState

/-- Resolve heap references into the final record shape. -/
def materialize (s : MachState) : Podcast :=
  { title := s.result.title, subtitle := s.result.subtitle, summary := s.result.summary,
    description := s.result.description, link := s.result.link, image := s.result.image,
    language := s.result.language, copyright := s.result.copyright,
    author := s.result.author, ttl := s.result.ttl, updated := s.result.updated,
    categories := s.result.categories,
    owner := s.result.ownerIdx.map (fun i => s.owners.getD i {}),
    episodes := s.result.episodeIdxs.map (fun idxs =>
      idxs.map (fun i => s.episodes.getD i {})),
    feed := none }

/-- The `onend` path of `parse`: run, resolve, finalize. -/
def parsePodcast (dparse : String → JSDate) (evs : List FeedEvent) : Podcast :=
  finalizePodcast (materialize (runEvents dparse evs))

/-- `parse` as a whole: the underlying event source either tokenizes the
document into events or fails with a message; a failure is wrapped into the
single rejection error, otherwise the machine runs to the finalized
record. -/
def parseFeed (dparse : String → JSDate) (input : Except String (List FeedEvent)) :
    Except String Podcast :=
  match input with
  | .error msg => .error ("Failed to parse podcast feed: " ++ msg)
  | .ok evs => .ok (parsePodcast dparse evs)

/-- Read the string-valued key `k` of the target object of role `r`. -/
def roleGetStr (s : MachState) : Role → String → Option String
  | .channel, k => s.result.getStr k
  | .owner i, k => (s.owners.getD i {}).getStr k
  | .item i, k => (s.episodes.getD i {}).getStr k

/-- The storage key of a copy-as-is or rename dispatch entry (`none` for a
transform entry or an unrecognised tag). -/
def ruleKey (r : Role) (tag : String) : Option String :=
  match textMapFor r tag with
  | some .copy => some tag
  | some (.ren k) => some k
  | _ => none

/-- The episode update performed for a retained chapter marker: truncate
the `start` attribute at the first `'.'`, convert it with the duration
parser, append to the chapter list. -/
def appendChapter (e : Episode) (st ti : String) : Episode :=
  { e with chapters := some ((e.chapters.getD []) ++
      [{ start := parseTime ((jsSplit '.' st).headD ""), title := ti }]) }

def safeTimeStr (x : String) : Prop :=
  (jsSplit ':' x).length ≤ 4 ∧
  ∀ tok ∈ jsSplit ':' x, 0 ≤ (parseIntJS tok).getD 0

/-- Safety of exactly the strings that reach the duration parser when
`stepEvent` fires in state `s`: the trimmed text of a non-whitespace text
event dispatched to an episode's `itunes:duration` entry, and the `start`
attribute (truncated at its first `'.'`) of a `psc:chapter` open that is
retained (both attributes truthy, an episode in progress, a parent on the
stack).  Nothing is demanded of any other string — titles, descriptions or
encoded content may contain anything. -/
def timeStringsSafe (s : MachState) : FeedEvent → Prop
  | .text t =>
      ∀ node parent rest i, s.stack = node :: parent :: rest →
        parent.role = some (.item i) → node.name = "itunes:duration" →
        jsTrim t ≠ "" → safeTimeStr (jsTrim t)
  | .openTag n attrs =>
      n = "psc:chapter" → s.stack ≠ [] → (∃ i, s.tmpEpisode = some i) →
      ∀ st ti, truthyAttr attrs "start" = some st →
        truthyAttr attrs "title" = some ti →
        safeTimeStr ((jsSplit '.' st).headD "")
  | .closeTag _ => True

/-- Along the machine run from `s`, every string that actually reaches the
duration parser is safe. -/
def runSafe (dparse : String → JSDate) : MachState → List FeedEvent → Prop
  | _, [] => True
  | s, ev :: evs => timeStringsSafe s ev ∧ runSafe dparse (stepEvent dparse s ev) evs

def goodEp (e : Episode) : Prop :=
  (∀ d, e.duration = some d → ∃ n, d = some n ∧ 0 ≤ n)
  ∧ (∀ cs, e.chapters = some cs → ∀ c ∈ cs, ∃ n, c.start = some n ∧ 0 ≤ n)

def episodeTimesNonneg (p : Podcast) : Prop :=
  ∀ e ∈ p.episodes.getD [], goodEp e

def goodHeap (s : MachState) : Prop := ∀ e ∈ s.episodes, goodEp e

/-! ## Theorems -/

theorem multiplier_eq_specWeight : ∀ i : Nat, i ≤ 3 → multiplier i = some (specWeight i) := by
  decide

theorem parseTimeAux_eq_spec (ts : List String) :
    ∀ (i : Nat) (acc : Int), i + ts.length ≤ 4 →
      parseTimeAux i (some acc) ts = some (parseTimeSpecAux i acc ts) := by
  induction ts with
  | nil => intro i acc _; rfl
  | cons v vs ih =>
      intro i acc h
      have hi : i ≤ 3 := by simp at h; omega
      have hm := multiplier_eq_specWeight i hi
      cases hp : parseIntJS v with
      | none =>
          simp only [parseTimeAux, parseTimeSpecAux, hp, Option.getD_none]
          rw [ih (i + 1) acc (by simp at h ⊢; omega)]
          simp
      | some p =>
          simp only [parseTimeAux, parseTimeSpecAux, hp, hm, Option.getD_some, jsMul, jsAdd]
          exact ih (i + 1) (acc + p * specWeight i) (by simp at h ⊢; omega)

/-- C1: the duration parser splits on `':'`, reverses so the
least-significant token is first, and folds left-to-right accumulating
token-value × weight, with weights 1, 60, 3600, 86400 for the successive
positions the specification describes; an unparsable token contributes zero
without aborting, and the empty input yields 0.  The general statement is
for strings of at most four colon-separated fields, the positions for which
the spec's weight sequence (×60, ×60, ×24) is defined; all of the spec's
example values are included. -/
theorem parseTime_matches_spec :
    (∀ s : String, (jsSplit ':' s).length ≤ 4 → parseTime s = some (parseTimeSpecFn s))
    ∧ parseTime "45" = some 45 ∧ parseTime "1:30" = some 90
    ∧ parseTime "1:30:45" = some 5445 ∧ parseTime "abc:def:ghi" = some 0
    ∧ parseTime "" = some 0 ∧ parseTime ":::" = some 0
    ∧ parseTime "abc:30" = some 30 := by
  refine ⟨?_, by decide, by decide, by decide, by decide, by decide, by decide, by decide⟩
  intro s h
  by_cases hs : s = ""
  · subst hs; decide
  · rw [parseTime, if_neg hs, parseTimeSpecFn]
    exact parseTimeAux_eq_spec _ 0 0 (by simpa using h)

/-- Witness for `parseTime_matches_spec` at the concrete input "2:03". -/
theorem parseTime_matches_spec_witness :
    parseTime "2:03" = some (parseTimeSpecFn "2:03") :=
  parseTime_matches_spec.1 "2:03" (by decide)

theorem insertLe_perm (le : α → α → Bool) (x : α) (l : List α) :
    List.Perm (insertLe le x l) (x :: l) := by
  induction l with
  | nil => exact List.Perm.refl _
  | cons y ys ih =>
      by_cases h : le y x = true
      · rw [insertLe, if_pos h]
        exact (ih.cons y).trans (List.Perm.swap x y ys)
      · rw [insertLe, if_neg h]

theorem foldl_insertLe_perm (le : α → α → Bool) (l : List α) :
    ∀ acc : List α, List.Perm (l.foldl (fun a x => insertLe le x a) acc) (acc ++ l) := by
  induction l with
  | nil => intro acc; simp
  | cons x xs ih =>
      intro acc
      simp only [List.foldl_cons]
      refine (ih (insertLe le x acc)).trans ?_
      refine (((insertLe_perm le x acc).append_right xs).trans ?_)
      exact List.perm_middle.symm

theorem stableSort_perm (le : α → α → Bool) (l : List α) :
    List.Perm (stableSort le l) l := by
  simpa using foldl_insertLe_perm le l []

theorem mem_insertLe (le : α → α → Bool) (x a : α) (l : List α) :
    a ∈ insertLe le x l ↔ a = x ∨ a ∈ l := by
  rw [(insertLe_perm le x l).mem_iff, List.mem_cons]

theorem pairwise_insertLe (le : α → α → Bool)
    (htrans : ∀ a b c, le a b = true → le b c = true → le a c = true)
    (htotal : ∀ a b, le a b = true ∨ le b a = true)
    (x : α) (l : List α) (h : l.Pairwise (fun a b => le a b = true)) :
    (insertLe le x l).Pairwise (fun a b => le a b = true) := by
  induction l with
  | nil => simp [insertLe]
  | cons y ys ih =>
      rcases List.pairwise_cons.mp h with ⟨hy, hys⟩
      by_cases hxy : le y x = true
      · rw [insertLe, if_pos hxy]
        refine List.pairwise_cons.mpr ⟨?_, ih hys⟩
        intro z hz
        rcases (mem_insertLe le x z ys).mp hz with rfl | hz'
        · exact hxy
        · exact hy z hz'
      · rw [insertLe, if_neg hxy]
        have hxyT : le x y = true := (htotal x y).resolve_right hxy
        refine List.pairwise_cons.mpr ⟨?_, h⟩
        intro z hz
        rcases List.mem_cons.mp hz with rfl | hz'
        · exact hxyT
        · exact htrans x y z hxyT (hy z hz')

theorem pairwise_foldl_insertLe (le : α → α → Bool)
    (htrans : ∀ a b c, le a b = true → le b c = true → le a c = true)
    (htotal : ∀ a b, le a b = true ∨ le b a = true)
    (l : List α) :
    ∀ acc : List α, acc.Pairwise (fun a b => le a b = true) →
      (l.foldl (fun a x => insertLe le x a) acc).Pairwise (fun a b => le a b = true) := by
  induction l with
  | nil => intro acc hacc; simpa using hacc
  | cons x xs ih =>
      intro acc hacc
      simp only [List.foldl_cons]
      exact ih _ (pairwise_insertLe le htrans htotal x acc hacc)

theorem pairwise_stableSort (le : α → α → Bool)
    (htrans : ∀ a b c, le a b = true → le b c = true → le a c = true)
    (htotal : ∀ a b, le a b = true ∨ le b a = true)
    (l : List α) :
    (stableSort le l).Pairwise (fun a b => le a b = true) :=
  pairwise_foldl_insertLe le htrans htotal l [] (List.Pairwise.nil)

theorem filter_insertLe_pos (le : α → α → Bool) (p : α → Bool)
    (htrans : ∀ a b c, le a b = true → le b c = true → le a c = true)
    (hcls : ∀ a b, p a = true → p b = true → le a b = true)
    (x : α) (hx : p x = true) :
    ∀ l : List α, l.Pairwise (fun a b => le a b = true) →
      (insertLe le x l).filter p = l.filter p ++ [x] := by
  intro l
  induction l with
  | nil => intro _; simp [insertLe, hx]
  | cons y ys ih =>
      intro h
      rcases List.pairwise_cons.mp h with ⟨hy, hys⟩
      by_cases hxy : le y x = true
      · rw [insertLe, if_pos hxy]
        by_cases hpy : p y = true
        · simp [List.filter_cons, hpy, ih hys]
        · simp [List.filter_cons, hpy, ih hys]
      · rw [insertLe, if_neg hxy]
        have hnil : (y :: ys).filter p = [] := by
          rw [List.filter_eq_nil_iff]
          intro z hz
          rcases List.mem_cons.mp hz with rfl | hz'
          · intro hpz; exact hxy (hcls z x hpz hx)
          · intro hpz
            exact hxy (htrans y z x (hy z hz') (hcls z x hpz hx))
        simp [List.filter_cons, hx, hnil]

theorem filter_insertLe_neg (le : α → α → Bool) (p : α → Bool)
    (x : α) (hx : p x = false) (l : List α) :
    (insertLe le x l).filter p = l.filter p := by
  induction l with
  | nil => simp [insertLe, hx]
  | cons y ys ih =>
      by_cases hxy : le y x = true
      · rw [insertLe, if_pos hxy]
        simp [List.filter_cons, ih]
      · rw [insertLe, if_neg hxy]
        simp [List.filter_cons, hx]

theorem filter_foldl_insertLe (le : α → α → Bool) (p : α → Bool)
    (htrans : ∀ a b c, le a b = true → le b c = true → le a c = true)
    (htotal : ∀ a b, le a b = true ∨ le b a = true)
    (hcls : ∀ a b, p a = true → p b = true → le a b = true)
    (l : List α) :
    ∀ acc : List α, acc.Pairwise (fun a b => le a b = true) →
      (l.foldl (fun a x => insertLe le x a) acc).filter p = acc.filter p ++ l.filter p := by
  induction l with
  | nil => intro acc _; simp
  | cons x xs ih =>
      intro acc hacc
      simp only [List.foldl_cons]
      rw [ih _ (pairwise_insertLe le htrans htotal x acc hacc)]
      by_cases hx : p x = true
      · rw [filter_insertLe_pos le p htrans hcls x hx acc hacc]
        simp [List.filter_cons, hx]
      · rw [filter_insertLe_neg le p x (by simpa using hx) acc]
        simp [List.filter_cons, hx]

theorem filter_stableSort (le : α → α → Bool) (p : α → Bool)
    (htrans : ∀ a b c, le a b = true → le b c = true → le a c = true)
    (htotal : ∀ a b, le a b = true ∨ le b a = true)
    (hcls : ∀ a b, p a = true → p b = true → le a b = true)
    (l : List α) :
    (stableSort le l).filter p = l.filter p := by
  simpa using filter_foldl_insertLe le p htrans htotal hcls l [] List.Pairwise.nil

theorem map_insertLe (le : α → α → Bool) (le' : β → β → Bool) (f : α → β)
    (x : α) (l : List α) (hcorr : ∀ y ∈ l, le y x = le' (f y) (f x)) :
    (insertLe le x l).map f = insertLe le' (f x) (l.map f) := by
  induction l with
  | nil => rfl
  | cons y ys ih =>
      have hy := hcorr y (List.mem_cons_self y ys)
      by_cases hxy : le y x = true
      · rw [insertLe, if_pos hxy, List.map_cons, List.map_cons, insertLe,
          if_pos (hy ▸ hxy)]
        rw [ih (fun z hz => hcorr z (List.mem_cons_of_mem y hz))]
      · rw [insertLe, if_neg hxy, List.map_cons, List.map_cons]
        rw [insertLe, if_neg (fun hc => hxy (hy ▸ hc))]

theorem map_foldl_insertLe (le : α → α → Bool) (le' : β → β → Bool) (f : α → β)
    (l : List α) :
    ∀ acc : List α,
      (∀ x ∈ l, ∀ y : α, (y ∈ acc ∨ y ∈ l) → le y x = le' (f y) (f x)) →
      (l.foldl (fun a x => insertLe le x a) acc).map f
        = (l.map f).foldl (fun a x => insertLe le' x a) (acc.map f) := by
  induction l with
  | nil => intro acc _; simp
  | cons x xs ih =>
      intro acc hcorr
      simp only [List.foldl_cons, List.map_cons]
      rw [← map_insertLe le le' f x acc
        (fun y hy => hcorr x (List.mem_cons_self x xs) y (Or.inl hy))]
      refine ih (insertLe le x acc) ?_
      intro z hz y hy
      refine hcorr z (List.mem_cons_of_mem x hz) y ?_
      rcases hy with hy | hy
      · rcases (mem_insertLe le x y acc).mp hy with rfl | hy'
        · exact Or.inr (List.mem_cons_self y xs)
        · exact Or.inl hy'
      · exact Or.inr (List.mem_cons_of_mem x hy)

theorem map_stableSort (le : α → α → Bool) (le' : β → β → Bool) (f : α → β)
    (l : List α) (hcorr : ∀ x ∈ l, ∀ y ∈ l, le y x = le' (f y) (f x)) :
    (stableSort le l).map f = stableSort le' (l.map f) := by
  refine map_foldl_insertLe le le' f l [] ?_
  intro x hx y hy
  rcases hy with hy | hy
  · exact absurd hy (List.not_mem_nil y)
  · exact hcorr x hx y hy

theorem mem_uniqAux [DecidableEq α] (a : α) :
    ∀ (l seen : List α), a ∈ uniqAux seen l ↔ a ∈ l ∧ a ∉ seen := by
  intro l
  induction l with
  | nil => intro seen; simp [uniqAux]
  | cons x xs ih =>
      intro seen
      by_cases hx : x ∈ seen
      · rw [uniqAux, if_pos hx, ih seen]
        constructor
        · rintro ⟨h1, h2⟩; exact ⟨List.mem_cons_of_mem x h1, h2⟩
        · rintro ⟨h1, h2⟩
          rcases List.mem_cons.mp h1 with rfl | h1'
          · exact absurd hx h2
          · exact ⟨h1', h2⟩
      · rw [uniqAux, if_neg hx]
        constructor
        · intro h
          rcases List.mem_cons.mp h with rfl | h'
          · exact ⟨List.mem_cons_self a xs, hx⟩
          · rcases (ih (x :: seen)).mp h' with ⟨h1, h2⟩
            exact ⟨List.mem_cons_of_mem x h1,
              fun hs => h2 (List.mem_cons_of_mem x hs)⟩
        · rintro ⟨h1, h2⟩
          rcases List.mem_cons.mp h1 with rfl | h1'
          · exact List.mem_cons_self a _
          · by_cases hax : a = x
            · subst hax; exact List.mem_cons_self a _
            · exact List.mem_cons_of_mem x ((ih (x :: seen)).mpr
                ⟨h1', fun hs => by
                  rcases List.mem_cons.mp hs with h | h
                  · exact hax h
                  · exact h2 h⟩)

theorem nodup_uniqAux [DecidableEq α] :
    ∀ (l seen : List α), (uniqAux seen l).Nodup := by
  intro l
  induction l with
  | nil => intro seen; simp [uniqAux]
  | cons x xs ih =>
      intro seen
      by_cases hx : x ∈ seen
      · rw [uniqAux, if_pos hx]; exact ih seen
      · rw [uniqAux, if_neg hx]
        refine List.nodup_cons.mpr ⟨?_, ih (x :: seen)⟩
        intro hmem
        exact ((mem_uniqAux x xs (x :: seen)).mp hmem).2 (List.mem_cons_self x seen)

theorem mem_uniq [DecidableEq α] (a : α) (l : List α) : a ∈ uniq l ↔ a ∈ l := by
  rw [uniq, mem_uniqAux]; simp

theorem nodup_uniq [DecidableEq α] (l : List α) : (uniq l).Nodup :=
  nodup_uniqAux l []

theorem lexLeN_total : ∀ a b : List Nat, lexLeN a b = true ∨ lexLeN b a = true
  | [], _ => Or.inl rfl
  | _ :: _, [] => Or.inr rfl
  | a :: as, b :: bs => by
      rcases Nat.lt_trichotomy a b with h | h | h
      · left; rw [lexLeN, if_pos h]
      · subst h
        rcases lexLeN_total as bs with h' | h'
        · left; rw [lexLeN, if_neg (Nat.lt_irrefl a), if_neg (Nat.lt_irrefl a)]; exact h'
        · right; rw [lexLeN, if_neg (Nat.lt_irrefl a), if_neg (Nat.lt_irrefl a)]; exact h'
      · right; rw [lexLeN, if_pos h]

theorem lexLeN_trans : ∀ a b c : List Nat,
    lexLeN a b = true → lexLeN b c = true → lexLeN a c = true
  | [], _, _ => by intro _ _; rfl
  | x :: xs, [], _ => by intro h _; exact absurd h (by rw [lexLeN]; simp)
  | _ :: _, _ :: _, [] => by intro _ h; exact absurd h (by rw [lexLeN]; simp)
  | x :: xs, y :: ys, z :: zs => by
      intro hab hbc
      rw [lexLeN] at hab hbc ⊢
      by_cases hxy : x < y
      · have hxz : x < z := by
          by_cases hyz : y < z
          · exact Nat.lt_trans hxy hyz
          · rw [if_neg hyz] at hbc
            by_cases hzy : z < y
            · rw [if_pos hzy] at hbc; exact absurd hbc (by simp)
            · have : y = z := by omega
              omega
        rw [if_pos hxz]
      · rw [if_neg hxy] at hab
        by_cases hyx : y < x
        · rw [if_pos hyx] at hab; exact absurd hab (by simp)
        · have hxyEq : x = y := by omega
          subst hxyEq
          by_cases hyz : x < z
          · rw [if_pos hyz]
          · rw [if_neg hyz] at hbc ⊢
            by_cases hzy : z < x
            · rw [if_pos hzy] at hbc; exact absurd hbc (by simp)
            · rw [if_neg hzy] at hbc ⊢
              rw [if_neg hyx] at hab
              exact lexLeN_trans xs ys zs hab hbc

theorem strLe_total (a b : String) : strLe a b = true ∨ strLe b a = true :=
  lexLeN_total (utf16 a) (utf16 b)

theorem strLe_trans (a b c : String) :
    strLe a b = true → strLe b c = true → strLe a c = true :=
  lexLeN_trans (utf16 a) (utf16 b) (utf16 c)

theorem epGetTime_valid (a : Episode) (ha : a.published ≠ some none) :
    epGetTime a = some (epKeyInt a) := by
  cases h : a.published with
  | none => simp [epGetTime, epKeyInt, h]
  | some d =>
      cases d with
      | none => exact absurd h ha
      | some t => simp [epGetTime, epKeyInt, h]

theorem epLe_eq_keys (a b : Episode) (ha : a.published ≠ some none)
    (hb : b.published ≠ some none) :
    epLe a b = decide (epKeyInt b ≤ epKeyInt a) := by
  rw [epLe, epGetTime_valid a ha, epGetTime_valid b hb]
  simp only [jsSub]
  exact decide_eq_decide.mpr (by omega)

/-- C2 counterexample: for a feed holding an episode published before the
Unix epoch (time `-100`) and an undated episode, the finalizer puts the
undated episode FIRST (its comparator key is `0`, not the earliest possible
timestamp), so the claimed ordering — undated episodes sink toward the
end — is violated. -/
theorem episodes_order_counterexample :
    ¬ claimedEpisodeOrder (((finalizePodcast
        { episodes := some [{ published := some (some (-100)) },
                            { published := none }] } : Podcast).episodes).getD []) := by
  intro h
  have he : (((finalizePodcast
      { episodes := some [{ published := some (some (-100)) },
                          { published := none }] } : Podcast).episodes).getD [])
      = [({ published := none } : Episode), { published := some (some (-100)) }] := by
    decide
  rw [claimedEpisodeOrder, he] at h
  rcases List.pairwise_cons.mp h with ⟨h1, -⟩
  have h2 := h1 _ (List.mem_cons_self _ _)
  simp only [specKeyBot] at h2
  exact absurd (le_bot_iff.mp h2) (by simp)

/-- C2 (amended): after finalization the episode list is sorted descending
by the comparator key — the published timestamp, with an episode lacking a
published timestamp treated as having timestamp 0 (the Unix epoch), not the
earliest possible timestamp — and the sort is stable: for every key value,
the episodes carrying that key appear in their original relative order.
Stated for feeds without Invalid-Date episodes (where the ECMA comparator
is consistent). -/
theorem episodes_sorted_stable (p : Podcast) (l : List Episode)
    (hl : p.episodes = some l)
    (hv : ∀ e ∈ l, e.published ≠ some none) :
    ∃ l', (finalizePodcast p).episodes = some l'
      ∧ List.Perm l' l
      ∧ l'.Pairwise (fun a b => epKeyInt b ≤ epKeyInt a)
      ∧ ∀ k : Int, l'.filter (fun e => epKeyInt e == k)
          = l.filter (fun e => epKeyInt e == k) := by
  classical
  refine ⟨stableSort epLe l, by simp [finalizePodcast, hl], stableSort_perm epLe l, ?_, ?_⟩
  all_goals
    have hcorr : ∀ x ∈ l, ∀ y ∈ l,
        epLe y x = (fun u v : Int × Episode => decide (v.1 ≤ u.1)) (⟨epKeyInt y, y⟩)
          (⟨epKeyInt x, x⟩) := by
      intro x hx y hy
      exact epLe_eq_keys y x (hv y hy) (hv x hx)
    have hmap := map_stableSort epLe (fun u v : Int × Episode => decide (v.1 ≤ u.1))
      (fun e => (epKeyInt e, e)) l hcorr
  · have hpw := pairwise_stableSort (fun u v : Int × Episode => decide (v.1 ≤ u.1))
      (fun a b c h1 h2 => by
        simp only [decide_eq_true_eq] at h1 h2 ⊢; omega)
      (fun a b => by
        by_cases h : b.1 ≤ a.1
        · exact Or.inl (by simpa using h)
        · exact Or.inr (by simp; omega))
      ((l.map (fun e => (epKeyInt e, e))))
    rw [← hmap] at hpw
    have := (List.pairwise_map).mp hpw
    exact this.imp (fun h => by simpa using h)
  · intro k
    have hfil := filter_stableSort (fun u v : Int × Episode => decide (v.1 ≤ u.1))
      (fun x => x.1 == k)
      (fun a b c h1 h2 => by
        simp only [decide_eq_true_eq] at h1 h2 ⊢; omega)
      (fun a b => by
        by_cases h : b.1 ≤ a.1
        · exact Or.inl (by simpa using h)
        · exact Or.inr (by simp; omega))
      (fun a b ha hb => by
        simp only [beq_iff_eq] at ha hb
        simp [ha, hb])
      ((l.map (fun e => (epKeyInt e, e))))
    rw [← hmap] at hfil
    have hinj : Function.Injective (fun e : Episode => (epKeyInt e, e)) := by
      intro a b hab
      exact congrArg Prod.snd hab
    apply List.map_injective_iff.mpr hinj
    have h1 : ((stableSort epLe l).map (fun e => (epKeyInt e, e))).filter
        (fun x => x.1 == k)
        = ((stableSort epLe l).filter (fun e => epKeyInt e == k)).map
            (fun e => (epKeyInt e, e)) := by
      rw [List.filter_map]; rfl
    have h2 : (l.map (fun e => (epKeyInt e, e))).filter (fun x => x.1 == k)
        = (l.filter (fun e => epKeyInt e == k)).map (fun e => (epKeyInt e, e)) := by
      rw [List.filter_map]; rfl
    rw [← h1, ← h2]
    exact hfil

/-- Witness for `episodes_sorted_stable` at a concrete two-episode feed. -/
theorem episodes_sorted_stable_witness :
    ∃ l', (finalizePodcast { episodes := some [{ published := some (some 5) },
        { published := none }] } : Podcast).episodes = some l'
      ∧ List.Perm l' [{ published := some (some 5) }, { published := none }]
      ∧ l'.Pairwise (fun a b => epKeyInt b ≤ epKeyInt a)
      ∧ ∀ k : Int, l'.filter (fun e => epKeyInt e == k)
          = [({ published := some (some 5) } : Episode),
             { published := none }].filter (fun e => epKeyInt e == k) :=
  episodes_sorted_stable _ _ rfl (by decide)

/-- C3: when the `updated` field was never set by an explicit source field,
the finalizer sets it from the first episode of the sorted list (its
published timestamp, or `null` when that episode has none, per `?? null`),
and to an explicit `null` when the document yielded no episodes at all. -/
theorem updated_default (p : Podcast) (h : p.updated = .unset) :
    (∀ l e es, p.episodes = some l → stableSort epLe l = e :: es →
        (finalizePodcast p).updated = publishedToUpdated e)
    ∧ ((p.episodes = none ∨ p.episodes = some []) →
        (finalizePodcast p).updated = .nullU) := by
  constructor
  · intro l e es hl hs
    cases hp : e.published with
    | none => simp [finalizePodcast, hl, hs, h, isFalsyUpdated, publishedToUpdated, hp]
    | some d => simp [finalizePodcast, hl, hs, h, isFalsyUpdated, publishedToUpdated, hp]
  · rintro (hl | hl)
    · simp [finalizePodcast, hl, h, isFalsyUpdated]
    · simp [finalizePodcast, hl, h, isFalsyUpdated, stableSort]

/-- Witness for `updated_default` at concrete feeds: one with a single
dated episode, one with no episodes. -/
theorem updated_default_witness :
    (finalizePodcast
      { updated := .unset, episodes := some [{ published := some (some 5) }] }).updated
      = .dateU (some 5)
    ∧ (finalizePodcast { updated := .unset }).updated = .nullU := by
  constructor
  · have h := (updated_default
      { updated := .unset, episodes := some [{ published := some (some 5) }] } rfl).1
      [{ published := some (some 5) }] { published := some (some 5) } [] rfl (by decide)
    simpa [publishedToUpdated] using h
  · exact (updated_default { updated := .unset } rfl).2 (Or.inl rfl)

/-- C4: the finalized feed record's `categories` field — always present by
construction — is sorted ascending in the JS string order, contains no
duplicates, and holds exactly the set of raw collected category strings;
the same holds of the record returned for every input document, relative
to the raw category list the run collected. -/
theorem categories_normalized :
    (∀ p : Podcast,
      ((finalizePodcast p).categories.Pairwise (fun a b => strLe a b = true))
      ∧ (finalizePodcast p).categories.Nodup
      ∧ (∀ s, s ∈ (finalizePodcast p).categories ↔ s ∈ p.categories))
    ∧ (∀ (dparse : String → JSDate) (evs : List FeedEvent),
      ((parsePodcast dparse evs).categories.Pairwise (fun a b => strLe a b = true))
      ∧ (parsePodcast dparse evs).categories.Nodup
      ∧ (∀ s, s ∈ (parsePodcast dparse evs).categories ↔
          s ∈ (runEvents dparse evs).result.categories)) := by
  have hfin : ∀ p : Podcast,
      ((finalizePodcast p).categories.Pairwise (fun a b => strLe a b = true))
      ∧ (finalizePodcast p).categories.Nodup
      ∧ (∀ s, s ∈ (finalizePodcast p).categories ↔ s ∈ p.categories) := by
    intro p
    have hcat : (finalizePodcast p).categories = stableSort strLe (uniq p.categories) := by
      simp [finalizePodcast]
    refine ⟨?_, ?_, ?_⟩
    · rw [hcat]; exact pairwise_stableSort strLe strLe_trans strLe_total _
    · rw [hcat]; exact ((stableSort_perm strLe _).nodup_iff).mpr (nodup_uniq _)
    · intro s; rw [hcat, (stableSort_perm strLe _).mem_iff, mem_uniq]
  exact ⟨hfin, fun dparse evs => hfin (materialize (runEvents dparse evs))⟩

/-- C5: opening an `itunes:category` element with a truthy `text` label
appends exactly one string to the raw category list: the labels of the
contiguous chain of `itunes:category` ancestors (walk stopped at the first
non-category ancestor, label-less ancestors contributing nothing) joined
with `>` in root-to-leaf order, followed by this element's label; with a
missing or empty label the element contributes nothing.  A category nested
three levels deep with labels A, B, C contributes exactly `"A>B>C"`. -/
theorem category_extraction (s : MachState) (attrs : List (String × String))
    (parent : PNode) (rest : List PNode) (h : s.stack = parent :: rest) :
    (∀ label, truthyAttr attrs "text" = some label →
      (handleOpenTag s "itunes:category" attrs).result.categories
        = s.result.categories ++
          [String.intercalate ">"
            (((((parent :: rest).takeWhile
                  (fun n : PNode => n.name == "itunes:category")).filterMap
                (fun n : PNode => truthyAttr n.attrs "text")).reverse) ++ [label])])
    ∧ (truthyAttr attrs "text" = none →
      (handleOpenTag s "itunes:category" attrs).result.categories
        = s.result.categories)
    ∧ ((handleOpenTag
        { stack := [{ name := "itunes:category", attrs := [("text", "B")] },
                    { name := "itunes:category", attrs := [("text", "A")] },
                    { name := "channel", attrs := [], role := some .channel },
                    { name := "rss", attrs := [] }] }
        "itunes:category" [("text", "C")]).result.categories = ["A>B>C"]) := by
  refine ?_
  obtain ⟨stk, res, ow, eps, tmp⟩ := s
  simp only [MachState.mk.injEq] at h
  refine ⟨?_, ?_, by decide⟩
  · intro label hl
    simp [handleOpenTag, h, hl]
  · intro hl
    simp [handleOpenTag, h, hl]

/-- Witness for `category_extraction` at a concrete state with a single
`channel` ancestor. -/
theorem category_extraction_witness :
    (handleOpenTag
      { stack := [{ name := "channel", attrs := [], role := some .channel }] }
      "itunes:category" [("text", "Tech")]).result.categories = ["Tech"] := by
  have h := (category_extraction
    { stack := [{ name := "channel", attrs := [], role := some .channel }] }
    [("text", "Tech")] { name := "channel", attrs := [], role := some .channel } []
    rfl).1 "Tech" (by decide)
  rw [h]
  decide

/-- C7: a chapter-marker (`psc:chapter`) open event with a missing `start`
or `title` attribute leaves the episode heap — and hence every chapter
list — unchanged (the chapter is silently skipped); with both attributes
present (and an episode in progress), the current episode's chapter list is
extended, in encounter order, by exactly the chapter whose start is the
duration-parse of the `start` attribute truncated before its first decimal
point and whose title is the `title` attribute. -/
theorem chapter_marker (s : MachState) (attrs : List (String × String)) :
    ((truthyAttr attrs "start" = none ∨ truthyAttr attrs "title" = none) →
      (handleOpenTag s "psc:chapter" attrs).episodes = s.episodes)
    ∧ (∀ st ti i parent rest, truthyAttr attrs "start" = some st →
        truthyAttr attrs "title" = some ti →
        s.stack = parent :: rest → s.tmpEpisode = some i →
        (handleOpenTag s "psc:chapter" attrs).episodes
          = s.episodes.set i (appendChapter (s.episodes.getD i {}) st ti)) := by
  obtain ⟨stk, res, ow, eps, tmp⟩ := s
  constructor
  · intro hmiss
    cases stk with
    | nil => simp [handleOpenTag]
    | cons parent rest =>
        rcases hmiss with hm | hm
        · cases tmp with
          | none => simp [handleOpenTag]
          | some i => simp [handleOpenTag, hm, setEp]
        · cases tmp with
          | none => simp [handleOpenTag]
          | some i =>
              cases hst : truthyAttr attrs "start" with
              | none => simp [handleOpenTag, hst, setEp]
              | some v => simp [handleOpenTag, hst, hm, setEp]
  · intro st ti i parent rest hst hti hstk htmp
    simp only [MachState.mk.injEq] at hstk htmp
    subst hstk htmp
    simp [handleOpenTag, hst, hti, setEp, appendChapter]

/-- Witness for `chapter_marker` at a concrete state: both attributes
present, one in-progress episode. -/
theorem chapter_marker_witness :
    (handleOpenTag
      { stack := [{ name := "item", attrs := [], role := some (.item 0) }],
        episodes := [{}], tmpEpisode := some 0 }
      "psc:chapter" [("start", "1:30.500"), ("title", "Intro")]).episodes
      = [{ chapters := some [{ start := some 90, title := "Intro" }] }] := by
  have h := (chapter_marker
    { stack := [{ name := "item", attrs := [], role := some (.item 0) }],
      episodes := [{}], tmpEpisode := some 0 }
    [("start", "1:30.500"), ("title", "Intro")]).2 "1:30.500" "Intro" 0
    { name := "item", attrs := [], role := some (.item 0) } [] (by decide) (by decide)
    rfl rfl
  rw [h]
  decide

theorem ownerGetStr_default (k : String) : (Owner.getStr {} k) = none := by
  unfold Owner.getStr
  split_ifs <;> rfl

theorem episodeGetStr_default (k : String) : (Episode.getStr {} k) = none := by
  unfold Episode.getStr
  split_ifs <;> rfl

theorem ruleKey_ne_category (r : Role) (n k : String) (h : ruleKey r n = some k) :
    n ≠ "category" := by
  intro hn
  subst hn
  cases r <;> simp [ruleKey, textMapFor] at h

theorem getStr_setStr_pb (p : PodcastBuild) (k t : String) (prev : String)
    (h : p.getStr k = some prev) :
    (p.setStr k t).getStr k = some (accum (some prev) t) := by
  unfold PodcastBuild.getStr at h
  unfold PodcastBuild.setStr PodcastBuild.getStr
  split_ifs at h ⊢ <;> simp_all [accum]

theorem getStr_setStr_ow (o : Owner) (k t : String) (prev : String)
    (h : o.getStr k = some prev) :
    (o.setStr k t).getStr k = some (accum (some prev) t) := by
  unfold Owner.getStr at h
  unfold Owner.setStr Owner.getStr
  split_ifs at h ⊢ <;> simp_all [accum]

theorem getStr_setStr_ep (e : Episode) (k t : String) (prev : String)
    (h : e.getStr k = some prev) :
    (e.setStr k t).getStr k = some (accum (some prev) t) := by
  unfold Episode.getStr at h
  unfold Episode.setStr Episode.getStr
  split_ifs at h ⊢ <;> simp_all [accum]

theorem roleGetStr_applyStrKey (s : MachState) (r : Role) (k t : String) (prev : String)
    (h : roleGetStr s r k = some prev) :
    roleGetStr (applyStrKey s r k t) r k = some (accum (some prev) t) := by
  cases r with
  | channel =>
      simp only [roleGetStr, applyStrKey] at h ⊢
      exact getStr_setStr_pb _ k t prev h
  | owner i =>
      simp only [roleGetStr, applyStrKey] at h ⊢
      have hlen : i < s.owners.length := by
        by_contra hge
        rw [List.getD_eq_getElem?_getD, List.getElem?_eq_none (by omega)] at h
        rw [Option.getD_none] at h
        rw [ownerGetStr_default] at h
        exact Option.noConfusion h
      rw [List.getD_eq_getElem?_getD, List.getElem?_set_self (by simpa using hlen),
        Option.getD_some]
      exact getStr_setStr_ow _ k t prev h
  | item i =>
      simp only [roleGetStr, applyStrKey, setEp] at h ⊢
      have hlen : i < s.episodes.length := by
        by_contra hge
        rw [List.getD_eq_getElem?_getD, List.getElem?_eq_none (by omega)] at h
        rw [Option.getD_none] at h
        rw [episodeGetStr_default] at h
        exact Option.noConfusion h
      rw [List.getD_eq_getElem?_getD, List.getElem?_set_self (by simpa using hlen),
        Option.getD_some]
      exact getStr_setStr_ep _ k t prev h

/-- C9: whitespace-only text events are ignored entirely (the state is
unchanged, no dispatch fires); and a text event dispatched under a
copy-as-is or rename entry whose target key already holds a non-empty
prior value appends the trimmed text to the prior value separated by a
single space rather than overwriting it. -/
theorem text_accumulate (dparse : String → JSDate) :
    (∀ (s : MachState) (t : String), jsTrim t = "" → handleText dparse s t = s)
    ∧ (∀ (s : MachState) (node parent : PNode) (rest : List PNode) (t : String)
        (r : Role) (k prev : String),
        s.stack = node :: parent :: rest →
        jsTrim t ≠ "" →
        parent.role = some r →
        ruleKey r node.name = some k →
        roleGetStr s r k = some prev → prev ≠ "" →
        roleGetStr (handleText dparse s t) r k = some (prev ++ " " ++ jsTrim t)) := by
  constructor
  · intro s t h
    simp [handleText, h]
  · intro s node parent rest t r k prev hstk ht hrole hkey hprev hne
    have hncat : node.name ≠ "category" := ruleKey_ne_category r node.name k hkey
    have haccum : accum (some prev) (jsTrim t) = prev ++ " " ++ jsTrim t := by
      simp [accum, hne]
    cases hmap : textMapFor r node.name with
    | none => simp [ruleKey, hmap] at hkey
    | some rule =>
        cases rule with
        | copy =>
            have hk : node.name = k := by simpa [ruleKey, hmap] using hkey
            subst hk
            rw [handleText]
            simp only [if_neg ht, hstk, hrole, hmap]
            have hres := roleGetStr_applyStrKey s r node.name (jsTrim t) prev hprev
            rw [haccum] at hres
            cases htmp : (applyStrKey s r node.name (jsTrim t)).tmpEpisode with
            | none => simpa using hres
            | some j => simpa [hncat] using hres
        | ren k' =>
            have hk : k' = k := by simpa [ruleKey, hmap] using hkey
            subst hk
            rw [handleText]
            simp only [if_neg ht, hstk, hrole, hmap]
            have hres := roleGetStr_applyStrKey s r k' (jsTrim t) prev hprev
            rw [haccum] at hres
            cases htmp : (applyStrKey s r k' (jsTrim t)).tmpEpisode with
            | none => simpa using hres
            | some j => simpa [hncat] using hres
        | tfm f => simp [ruleKey, hmap] at hkey

/-- Witness for `text_accumulate` at a concrete state: a second `title`
text under `channel` is appended to the prior title with a space. -/
theorem text_accumulate_witness :
    roleGetStr
      (handleText (fun _ => none)
        { stack := [{ name := "title", attrs := [] },
                    { name := "channel", attrs := [], role := some .channel }],
          result := { title := some "Hello" } }
        " world ") .channel "title" = some "Hello world" := by
  have h := (text_accumulate (fun _ => none)).2
    { stack := [{ name := "title", attrs := [] },
                { name := "channel", attrs := [], role := some .channel }],
      result := { title := some "Hello" } }
    { name := "title", attrs := [] }
    { name := "channel", attrs := [], role := some .channel } [] " world "
    .channel "title" "Hello" rfl (by decide) rfl (by decide) (by decide) (by decide)
  rw [h]
  decide

/-- C8: when the underlying event source cannot tokenize the document
(malformed markup), the operation's result is exactly the single error
wrapping the underlying cause's description — in particular it is an
`error`, not an `ok` carrying a partial feed record. -/
theorem parse_failure (dparse : String → JSDate) (msg : String) :
    parseFeed dparse (.error msg) = .error ("Failed to parse podcast feed: " ++ msg) :=
  rfl

theorem applyStrKey_copyright (s : MachState) (r : Role) (k t : String) :
    (applyStrKey s r k t).result.copyright = s.result.copyright := by
  cases r with
  | channel =>
      simp only [applyStrKey]
      unfold PodcastBuild.setStr
      split_ifs <;> rfl
  | owner i => rfl
  | item i => rfl

theorem applyTfm_copyright (dparse : String → JSDate) (s : MachState) (r : Role)
    (f : Transform) (t : String) :
    (applyTfm dparse s r f t).result.copyright = s.result.copyright := by
  cases f <;> cases r <;> rfl

theorem handleText_copyright (dparse : String → JSDate) (s : MachState) (t : String) :
    (handleText dparse s t).result.copyright = s.result.copyright := by
  rw [handleText]
  by_cases ht : jsTrim t = ""
  · rw [if_pos ht]
  · rw [if_neg ht]
    cases hs : s.stack with
    | nil => rfl
    | cons node rest' =>
        cases rest' with
        | nil => rfl
        | cons parent rest =>
            dsimp only
            have hstage2 : ∀ (s1 : MachState), s1.result.copyright = s.result.copyright →
                (match s1.tmpEpisode with
                  | some i =>
                      if node.name = "category" then
                        setEp s1 i (fun e =>
                          { e with categories := some ((e.categories.getD []) ++ [jsTrim t]) })
                      else s1
                  | none => s1).result.copyright = s.result.copyright := by
              intro s1 h1
              cases htmp : s1.tmpEpisode with
              | none => exact h1
              | some i =>
                  dsimp only
                  by_cases hn : node.name = "category"
                  · rw [if_pos hn]; simpa [setEp] using h1
                  · rw [if_neg hn]; exact h1
            cases hrole : parent.role with
            | none => exact hstage2 s rfl
            | some r =>
                dsimp only
                cases hmap : textMapFor r node.name with
                | none => exact hstage2 s rfl
                | some rule =>
                    cases rule with
                    | copy =>
                        exact hstage2 _ (applyStrKey_copyright s r node.name (jsTrim t))
                    | ren k =>
                        exact hstage2 _ (applyStrKey_copyright s r k (jsTrim t))
                    | tfm f =>
                        exact hstage2 _ (applyTfm_copyright dparse s r f (jsTrim t))

theorem handleOpenTag_copyright (s : MachState) (n : String)
    (a : List (String × String)) :
    (handleOpenTag s n a).result.copyright = s.result.copyright := by
  obtain ⟨stk, res, ow, eps, tmp⟩ := s
  cases stk with
  | nil => rfl
  | cons parent rest =>
      cases tmp with
      | none =>
          simp only [handleOpenTag]
          split_ifs <;>
            first
            | rfl
            | (cases truthyAttr a "href" <;> rfl)
            | (cases truthyAttr a "text" <;> rfl)
      | some i =>
          simp only [handleOpenTag]
          split_ifs <;>
            first
            | rfl
            | (cases truthyAttr a "href" <;> rfl)
            | (cases truthyAttr a "text" <;> rfl)
            | (cases truthyAttr a "start" <;> cases truthyAttr a "title" <;> rfl)

theorem handleCloseTag_copyright (s : MachState) (n : String) :
    (handleCloseTag s n).result.copyright = s.result.copyright := by
  rw [handleCloseTag]
  cases s.tmpEpisode with
  | none => rfl
  | some i =>
      dsimp only
      by_cases hn : n = "item"
      · rw [if_pos hn]
      · rw [if_neg hn]

/-- C10: no dispatch-table entry and no structural extractor ever writes the
`copyright` field, so for every input document the returned feed record's
`copyright` is absent, even though the output type declares it. -/
theorem copyright_never_populated (dparse : String → JSDate) (evs : List FeedEvent) :
    (parsePodcast dparse evs).copyright = none := by
  have hrun : ∀ (l : List FeedEvent) (s : MachState), s.result.copyright = none →
      (l.foldl (stepEvent dparse) s).result.copyright = none := by
    intro l
    induction l with
    | nil => intro s h; exact h
    | cons e es ih =>
        intro s h
        rw [List.foldl_cons]
        refine ih _ ?_
        cases e with
        | openTag n a => rw [stepEvent, handleOpenTag_copyright]; exact h
        | closeTag n => rw [stepEvent, handleCloseTag_copyright]; exact h
        | text t => rw [stepEvent, handleText_copyright]; exact h
  have h := hrun evs initState rfl
  simp [parsePodcast, materialize, finalizePodcast, runEvents] at h ⊢
  exact h

theorem specWeight_nonneg (i : Nat) : 0 ≤ specWeight i := by
  match i with
  | 0 => decide
  | 1 => decide
  | 2 => decide
  | (n + 3) => exact (by decide : (0 : Int) ≤ 86400)

theorem parseTimeAux_nonneg (ts : List String) :
    ∀ (i : Nat) (acc : Int), i + ts.length ≤ 4 → 0 ≤ acc →
      (∀ tok ∈ ts, 0 ≤ (parseIntJS tok).getD 0) →
      ∃ n, parseTimeAux i (some acc) ts = some n ∧ 0 ≤ n := by
  induction ts with
  | nil => intro i acc _ hacc _; exact ⟨acc, rfl, hacc⟩
  | cons v vs ih =>
      intro i acc hlen hacc htok
      have hi : i ≤ 3 := by simp at hlen; omega
      have hm := multiplier_eq_specWeight i hi
      cases hp : parseIntJS v with
      | none =>
          simp only [parseTimeAux, hp]
          exact ih (i + 1) acc (by simp at hlen ⊢; omega) hacc
            (fun tok hmem => htok tok (List.mem_cons_of_mem v hmem))
      | some p =>
          have hp0 : 0 ≤ p := by
            have := htok v (List.mem_cons_self v vs)
            rwa [hp, Option.getD_some] at this
          simp only [parseTimeAux, hp, hm, jsMul, jsAdd]
          exact ih (i + 1) (acc + p * specWeight i) (by simp at hlen ⊢; omega)
            (add_nonneg hacc (mul_nonneg hp0 (specWeight_nonneg i)))
            (fun tok hmem => htok tok (List.mem_cons_of_mem v hmem))

theorem parseTime_nonneg (x : String) (h : safeTimeStr x) :
    ∃ n, parseTime x = some n ∧ 0 ≤ n := by
  by_cases hx : x = ""
  · subst hx; exact ⟨0, rfl, le_refl 0⟩
  · rw [parseTime, if_neg hx]
    rcases h with ⟨hlen, htok⟩
    refine parseTimeAux_nonneg _ 0 0 (by simpa using hlen) (le_refl 0) ?_
    intro tok hmem
    exact htok tok (List.mem_reverse.mp hmem)

theorem goodEp_default : goodEp ({} : Episode) := by
  constructor
  · intro d hd; exact Option.noConfusion hd
  · intro cs hcs; exact absurd hcs (by simp)

theorem getD_mem_or_default (l : List Episode) (i : Nat) :
    l.getD i {} ∈ l ∨ l.getD i {} = ({} : Episode) := by
  cases h : l[i]? with
  | none => right; rw [List.getD_eq_getElem?_getD, h, Option.getD_none]
  | some a =>
      left
      rw [List.getD_eq_getElem?_getD, h, Option.getD_some]
      exact List.getElem?_mem h

theorem set_goodList (eps : List Episode) (i : Nat) (f : Episode → Episode)
    (h : ∀ e ∈ eps, goodEp e) (hf : ∀ e, goodEp e → goodEp (f e)) :
    ∀ e ∈ eps.set i (f (eps.getD i {})), goodEp e := by
  intro e he
  rcases List.mem_or_eq_of_mem_set he with he' | rfl
  · exact h e he'
  · refine hf _ ?_
    rcases getD_mem_or_default eps i with hm | hd
    · exact h _ hm
    · rw [hd]; exact goodEp_default

theorem goodEp_setStr (e : Episode) (k t : String) (h : goodEp e) :
    goodEp (e.setStr k t) := by
  have hd : (e.setStr k t).duration = e.duration ∧ (e.setStr k t).chapters = e.chapters := by
    unfold Episode.setStr; split_ifs <;> exact ⟨rfl, rfl⟩
  unfold goodEp
  rw [hd.1, hd.2]
  exact h

theorem goodEp_mem_append_default (eps : List Episode) (h : ∀ e ∈ eps, goodEp e) :
    ∀ e ∈ eps ++ [({} : Episode)], goodEp e := by
  intro e hm
  rcases List.mem_append.mp hm with hm | hm
  · exact h e hm
  · rw [List.mem_singleton] at hm; subst hm; exact goodEp_default

theorem goodEp_appendChapter (e : Episode) (st ti : String)
    (hst : ∃ n, parseTime ((jsSplit '.' st).headD "") = some n ∧ 0 ≤ n)
    (he : goodEp e) :
    goodEp { e with chapters := some ((e.chapters.getD []) ++
      [{ start := parseTime ((jsSplit '.' st).headD ""), title := ti }]) } := by
  refine ⟨he.1, ?_⟩
  intro cs hcs
  rw [Option.some.injEq] at hcs
  subst hcs
  intro c hc
  rcases List.mem_append.mp hc with hc | hc
  · cases hch : e.chapters with
    | none => rw [hch, Option.getD_none] at hc; simp at hc
    | some cs0 =>
        rw [hch, Option.getD_some] at hc
        exact he.2 cs0 hch c hc
  · rw [List.mem_singleton] at hc
    subst hc
    exact hst

theorem handleCloseTag_episodes (s : MachState) (n : String) :
    (handleCloseTag s n).episodes = s.episodes := by
  rw [handleCloseTag]
  cases s.tmpEpisode with
  | none => rfl
  | some i =>
      dsimp only
      by_cases hn : n = "item"
      · rw [if_pos hn]
      · rw [if_neg hn]

theorem applyStrKey_goodHeap (s : MachState) (r : Role) (k t : String)
    (h : goodHeap s) : goodHeap (applyStrKey s r k t) := by
  cases r with
  | channel => exact h
  | owner i => exact h
  | item i =>
      exact set_goodList s.episodes i (fun e => e.setStr k t) h
        (fun e he => goodEp_setStr e k t he)

theorem textMapFor_itemDuration (r : Role) (n : String)
    (h : textMapFor r n = some (.tfm .itemDuration)) :
    (∃ i, r = Role.item i) ∧ n = "itunes:duration" := by
  cases r with
  | channel => simp only [textMapFor] at h; split_ifs at h <;> simp_all
  | owner i => simp only [textMapFor] at h; split_ifs at h <;> simp_all
  | item i =>
      refine ⟨⟨i, rfl⟩, ?_⟩
      simp only [textMapFor] at h
      split_ifs at h <;> simp_all

theorem applyTfm_goodHeap (dparse : String → JSDate) (s : MachState) (r : Role)
    (f : Transform) (t : String) (hsafe : f = .itemDuration → safeTimeStr t)
    (h : goodHeap s) :
    goodHeap (applyTfm dparse s r f t) := by
  cases f with
  | language => cases r <;> exact h
  | ttl => cases r <;> exact h
  | chanPubDate => cases r <;> exact h
  | itemPubDate =>
      cases r with
      | channel => exact h
      | owner i => exact h
      | item i =>
          exact set_goodList s.episodes i
            (fun e => { e with published := some (dparse t) }) h (fun e he => he)
  | itemDuration =>
      cases r with
      | channel => exact h
      | owner i => exact h
      | item i =>
          refine set_goodList s.episodes i
            (fun e => { e with duration := some (parseTime t) }) h (fun e he => ?_)
          obtain ⟨n, hn, h0⟩ := parseTime_nonneg t (hsafe rfl)
          refine ⟨?_, he.2⟩
          intro d hd
          rw [Option.some.injEq] at hd
          subst hd
          exact ⟨n, hn, h0⟩

theorem handleText_goodHeap (dparse : String → JSDate) (s : MachState) (t : String)
    (hsafe : ∀ node parent rest i, s.stack = node :: parent :: rest →
      parent.role = some (.item i) → node.name = "itunes:duration" →
      jsTrim t ≠ "" → safeTimeStr (jsTrim t))
    (h : goodHeap s) :
    goodHeap (handleText dparse s t) := by
  rw [handleText]
  by_cases ht : jsTrim t = ""
  · rw [if_pos ht]; exact h
  · rw [if_neg ht]
    cases hs : s.stack with
    | nil => exact h
    | cons node rest' =>
        cases rest' with
        | nil => exact h
        | cons parent rest =>
            dsimp only
            have hstage2 : ∀ (s1 : MachState), goodHeap s1 →
                goodHeap (match s1.tmpEpisode with
                  | some i =>
                      if node.name = "category" then
                        setEp s1 i (fun e =>
                          { e with categories := some ((e.categories.getD []) ++ [jsTrim t]) })
                      else s1
                  | none => s1) := by
              intro s1 h1
              cases htmp : s1.tmpEpisode with
              | none => exact h1
              | some i =>
                  dsimp only
                  by_cases hn : node.name = "category"
                  · rw [if_pos hn]
                    exact set_goodList s1.episodes i
                      (fun e =>
                        { e with categories := some ((e.categories.getD []) ++ [jsTrim t]) })
                      h1 (fun e he => he)
                  · rw [if_neg hn]; exact h1
            cases hrole : parent.role with
            | none => exact hstage2 s h
            | some r =>
                dsimp only
                cases hmap : textMapFor r node.name with
                | none => exact hstage2 s h
                | some rule =>
                    cases rule with
                    | copy => exact hstage2 _ (applyStrKey_goodHeap s r node.name (jsTrim t) h)
                    | ren k => exact hstage2 _ (applyStrKey_goodHeap s r k (jsTrim t) h)
                    | tfm f =>
                        refine hstage2 _ (applyTfm_goodHeap dparse s r f (jsTrim t) ?_ h)
                        intro hf
                        subst hf
                        obtain ⟨⟨i, hr⟩, hnm⟩ := textMapFor_itemDuration r node.name hmap
                        subst hr
                        exact hsafe node parent rest i hs hrole hnm ht

theorem handleOpenTag_goodHeap (s : MachState) (n : String) (a : List (String × String))
    (hev : n = "psc:chapter" → s.stack ≠ [] → (∃ i, s.tmpEpisode = some i) →
      ∀ st ti, truthyAttr a "start" = some st → truthyAttr a "title" = some ti →
        safeTimeStr ((jsSplit '.' st).headD ""))
    (h : goodHeap s) :
    goodHeap (handleOpenTag s n a) := by
  obtain ⟨stk, res, ow, eps, tmp⟩ := s
  cases stk with
  | nil => exact h
  | cons parent rest =>
      cases tmp with
      | none =>
          simp only [handleOpenTag]
          split_ifs <;>
            first
            | (intro e hm; exact h e hm)
            | (cases truthyAttr a "href" <;> (intro e hm; exact h e hm))
            | (cases truthyAttr a "text" <;> (intro e hm; exact h e hm))
            | exact goodEp_mem_append_default eps h
      | some i =>
          simp only [handleOpenTag]
          split_ifs with h1 h2 h3 h4 h5 h6 h7 h8
          · intro e hm; exact h e hm
          · cases truthyAttr a "href" <;> (intro e hm; exact h e hm)
          · intro e hm; exact h e hm
          · cases truthyAttr a "text" <;> (intro e hm; exact h e hm)
          · exact goodEp_mem_append_default eps h
          · cases truthyAttr a "href" with
            | none => intro e hm; exact h e hm
            | some href =>
                exact set_goodList eps i (fun e => { e with image := some href }) h
                  (fun e he => he)
          · exact set_goodList eps i
              (fun e => { e with enclosure := some ({ filesize := (truthyAttr a "length").map parseIntJS, type := getAttr a "type", url := getAttr a "url" } : Enclosure) }) h
              (fun e he => he)
          · cases hst : truthyAttr a "start" with
            | none => cases truthyAttr a "title" <;> (intro e hm; exact h e hm)
            | some st =>
                cases hti : truthyAttr a "title" with
                | none => intro e hm; exact h e hm
                | some ti =>
                    exact set_goodList eps i
                      (fun e => { e with chapters := some ((e.chapters.getD []) ++
                        [{ start := parseTime ((jsSplit '.' st).headD ""),
                           title := ti }]) }) h
                      (fun e he =>
                        goodEp_appendChapter e st ti
                          (parseTime_nonneg _
                            (hev h8 (by simp) ⟨i, rfl⟩ st ti hst hti)) he)
          · intro e hm; exact h e hm

theorem step_goodHeap (dparse : String → JSDate) (s : MachState) (ev : FeedEvent)
    (hev : timeStringsSafe s ev) (h : goodHeap s) : goodHeap (stepEvent dparse s ev) := by
  cases ev with
  | openTag n a => exact handleOpenTag_goodHeap s n a hev h
  | closeTag n =>
      intro e hm
      rw [stepEvent, handleCloseTag_episodes] at hm
      exact h e hm
  | text t => exact handleText_goodHeap dparse s t hev h

/-- C6 (amended): every episode duration (when present) and every chapter
start in the returned feed record is a non-negative integer, provided every
time string that actually reaches the duration parser during the run — the
trimmed `itunes:duration` text of an episode, and the `start` attribute of
a retained chapter truncated at its first `'.'` — is safe: at most four
colon-separated fields and no field parsing to a negative integer.  Both
parts of the proviso are forced: `"-5"` yields a negative duration and
`"1:1:1:1:1"` a NaN one (see the counterexample).  All other strings in the
document (titles, descriptions, encoded content) are unconstrained. -/
theorem times_nonneg (dparse : String → JSDate) (evs : List FeedEvent)
    (hsafe : runSafe dparse initState evs) :
    episodeTimesNonneg (parsePodcast dparse evs) := by
  have hrun : ∀ (l : List FeedEvent) (s : MachState),
      runSafe dparse s l → goodHeap s →
      goodHeap (l.foldl (stepEvent dparse) s) := by
    intro l
    induction l with
    | nil => intro s _ h; exact h
    | cons e es ih =>
        intro s hl h
        rw [List.foldl_cons]
        exact ih _ hl.2 (step_goodHeap dparse s e hl.1 h)
  have hheap : goodHeap (runEvents dparse evs) :=
    hrun evs initState hsafe (by intro e hm; simp [initState] at hm)
  intro e hm
  have hE : (parsePodcast dparse evs).episodes
      = ((runEvents dparse evs).result.episodeIdxs.map (fun idxs =>
          idxs.map (fun i => (runEvents dparse evs).episodes.getD i {}))).map
        (fun l => stableSort epLe l) := by
    simp [parsePodcast, finalizePodcast, materialize]
  rw [hE] at hm
  cases hidx : (runEvents dparse evs).result.episodeIdxs with
  | none =>
      rw [hidx] at hm
      simp only [Option.map_none', Option.getD_none] at hm
      exact absurd hm (List.not_mem_nil e)
  | some idxs =>
      rw [hidx] at hm
      simp only [Option.map_some', Option.getD_some] at hm
      have hm' := (stableSort_perm epLe _).mem_iff.mp hm
      rcases List.mem_map.mp hm' with ⟨i, _, rfl⟩
      rcases getD_mem_or_default (runEvents dparse evs).episodes i with hmm | hd
      · exact hheap _ hmm
      · rw [hd]; exact goodEp_default

/-- C6 counterexample: a document whose `itunes:duration` text is "-5"
yields an episode whose duration is the negative integer -5, and one whose
text is "1:1:1:1:1" (five numeric fields) yields an episode whose duration
is NaN — in both cases not a non-negative integer, refuting the claim that
durations are always non-negative integers and forcing both parts of the
amendment's proviso. -/
theorem times_nonneg_counterexample :
    (¬ episodeTimesNonneg (parsePodcast (fun _ => none)
      [.openTag "rss" [], .openTag "channel" [], .openTag "item" [],
       .openTag "itunes:duration" [], .text "-5", .closeTag "itunes:duration",
       .closeTag "item", .closeTag "channel", .closeTag "rss"]))
    ∧ (¬ episodeTimesNonneg (parsePodcast (fun _ => none)
      [.openTag "rss" [], .openTag "channel" [], .openTag "item" [],
       .openTag "itunes:duration" [], .text "1:1:1:1:1", .closeTag "itunes:duration",
       .closeTag "item", .closeTag "channel", .closeTag "rss"])) := by
  constructor
  · intro h
    have hmem : ({ duration := some (some (-5)) } : Episode) ∈
        (parsePodcast (fun _ => none)
          [.openTag "rss" [], .openTag "channel" [], .openTag "item" [],
           .openTag "itunes:duration" [], .text "-5", .closeTag "itunes:duration",
           .closeTag "item", .closeTag "channel", .closeTag "rss"]).episodes.getD [] := by
      decide
    rcases (h _ hmem).1 (some (-5)) rfl with ⟨n, hn, h0⟩
    rw [Option.some.injEq] at hn
    omega
  · intro h
    have hmem : ({ duration := some none } : Episode) ∈
        (parsePodcast (fun _ => none)
          [.openTag "rss" [], .openTag "channel" [], .openTag "item" [],
           .openTag "itunes:duration" [], .text "1:1:1:1:1", .closeTag "itunes:duration",
           .closeTag "item", .closeTag "channel", .closeTag "rss"]).episodes.getD [] := by
      decide
    rcases (h _ hmem).1 none rfl with ⟨n, hn, h0⟩
    exact Option.noConfusion hn

/-- Witness for `times_nonneg` at a concrete document with duration
"1:30": the only strings the hypothesis constrains are the duration text
(safe) — no open tag is named `psc:chapter`. -/
theorem times_nonneg_witness :
    episodeTimesNonneg (parsePodcast (fun _ => none)
      [.openTag "rss" [], .openTag "channel" [], .openTag "item" [],
       .openTag "itunes:duration" [], .text "1:30", .closeTag "itunes:duration",
       .closeTag "item", .closeTag "channel", .closeTag "rss"]) := by
  refine times_nonneg (fun _ => none) _ ?_
  exact ⟨fun hc => absurd hc (by decide),
         fun hc => absurd hc (by decide),
         fun hc => absurd hc (by decide),
         fun hc => absurd hc (by decide),
         fun _ _ _ _ _ _ _ _ => ⟨by decide, by decide⟩,
         True.intro, True.intro, True.intro, True.intro, True.intro⟩

end Podson
